import Mathlib

/-!
Verification of the sender-account edit bot and its error-notification
tracker, as a shallow embedding of the repository's Python sources
(getAccountData_editAccount.py, sheets/error_notifier.py).

Strings are modelled as lists of characters (Python str).  Regex calls
are modelled by executable functions on character lists whose semantics
is explained at each definition.
-/

namespace SenderBot

/-- Characters that the regex class [,\n] matches in
clean_backup_codes (re.sub(r"[,\n]+", " ", ...)). -/
def isSep (c : Char) : Bool := c = ',' || c = '\n'

/-- Model of Python's regex class \d (re.findall(r"\d{8,}", ...),
re.sub(r"\D", "", ...)).  Python's \d matches any Unicode decimal digit;
the program only ever sees ASCII digits, Arabic-Indic digits
(U+0660-U+0669) and Extended Arabic-Indic digits (U+06F0-U+06F9), which
are the scripts modelled here. -/
def isPyDigit (c : Char) : Bool :=
  c.isDigit || (0x660 ≤ c.toNat && c.toNat ≤ 0x669)
    || (0x6F0 ≤ c.toNat && c.toNat ≤ 0x6F9)

/-- Python str.strip(): remove leading and trailing whitespace. -/
def pyStrip (l : List Char) : List Char :=
  ((l.dropWhile Char.isWhitespace).reverse.dropWhile Char.isWhitespace).reverse

/-- The arabic_to_english replacement table of convert_arabic_numbers,
in the iteration order of the Python dict literal. -/
def arabicPairs : List (Char × Char) :=
  [('٠', '0'), ('١', '1'), ('٢', '2'), ('٣', '3'), ('٤', '4'),
   ('٥', '5'), ('٦', '6'), ('٧', '7'), ('٨', '8'), ('٩', '9')]

/-- One replacement step on a single character: text.replace(ar, en)
acts pointwise since both pattern and replacement are single chars. -/
def applyPair (c : Char) (p : Char × Char) : Char := if c = p.1 then p.2 else c

/-- The composition of the ten single-character replacements, pointwise. -/
def convChar (c : Char) : Char := arabicPairs.foldl applyPair c

/-- processed_text.replace(ar, en) for a single-character pattern. -/
def replaceAll (p : Char × Char) (l : List Char) : List Char :=
  l.map (fun c => applyPair c p)

/-- convert_arabic_numbers: the for-loop over the replacement table. -/
def convert_arabic_numbers (l : List Char) : List Char :=
  arabicPairs.foldl (fun acc p => replaceAll p acc) l

/-- Split a character list into the (possibly empty) maximal blocks of
characters satisfying P, the blocks being delimited by the characters
not satisfying P.  This is the piece structure a regex scan of P-runs
sees: the nonempty blocks are exactly the maximal P-runs. -/
def splitRuns (P : Char → Bool) : List Char → List (List Char)
  | [] => [[]]
  | c :: cs =>
    if P c then (c :: (splitRuns P cs).headD []) :: (splitRuns P cs).tail
    else [] :: splitRuns P cs

/-- re.findall(r"\d{8,}", s) for the digit class P: the greedy scan
returns exactly the maximal P-runs of length at least 8, left to
right. -/
def findall8 (P : Char → Bool) (l : List Char) : List (List Char) :=
  (splitRuns P l).filter (fun r => decide (8 ≤ r.length))

/-- Worker for standardize; the flag records whether the previous
character was part of a separator run already replaced by one space. -/
def stdGo : Bool → List Char → List Char
  | _, [] => []
  | inSep, c :: cs =>
    if isSep c then
      if inSep then stdGo true cs else ' ' :: stdGo true cs
    else c :: stdGo false cs

/-- re.sub(r"[,\n]+", " ", s): every maximal run of commas/newlines is
replaced by a single space. -/
def standardize (l : List Char) : List Char := stdGo false l

/-- Python code[-8:]: the last 8 characters (the whole list if shorter). -/
def last8 (r : List Char) : List Char := r.drop (r.length - 8)

/-- Worker for pyDedup: keep the first occurrence of each element,
skipping elements already seen. -/
def pyDedupAux (seen : List (List Char)) : List (List Char) → List (List Char)
  | [] => []
  | x :: xs => if x ∈ seen then pyDedupAux seen xs else x :: pyDedupAux (x :: seen) xs

/-- list(dict.fromkeys(codes)): deduplicate keeping first occurrences. -/
def pyDedup (l : List (List Char)) : List (List Char) := pyDedupAux [] l

/-- sep.join(parts) for a single-character separator. -/
def joinWith (sep : Char) : List (List Char) → List Char
  | [] => []
  | [r] => r
  | r :: rest => r ++ sep :: joinWith sep rest

/-- clean_backup_codes: normalize Arabic digits, replace comma/newline
runs by spaces, collect all runs of 8 or more digits, keep the last 8
digits of each, deduplicate keeping first occurrences, join with
commas. -/
def clean_backup_codes (l : List Char) : List Char :=
  joinWith ','
    (pyDedup ((findall8 isPyDigit (standardize (convert_arabic_numbers l))).map last8))

/-- Splitting a field on comma/newline characters: the pieces between
the separator characters. -/
def splitFieldPieces (l : List Char) : List (List Char) :=
  splitRuns (fun c => !(isSep c)) l

/-- Modelled from the claim wording (for the refinement statement of
the backup-code cleanup): normalize digits, split on commas and
newlines, extract every run of 8 or more consecutive digits from each
piece, keep only the last 8 digits of each run, deduplicate preserving
first-seen order, join with commas. -/
def spec_clean_backup_codes (l : List Char) : List Char :=
  joinWith ','
    (pyDedup
      (((splitFieldPieces (convert_arabic_numbers l)).flatMap (findall8 isPyDigit)).map last8))

example : clean_backup_codes ("12345678, 12345678, 87654321").toList
    = ("12345678,87654321").toList := by decide

example : convert_arabic_numbers ("١٢٣").toList = ("123").toList := by decide

example : clean_backup_codes ("1,2").toList = ([]) := by decide

theorem splitRuns_ne_nil (P : Char → Bool) (l : List Char) : splitRuns P l ≠ [] := by
  cases l with
  | nil => simp [splitRuns]
  | cons c cs => by_cases h : P c <;> simp [splitRuns, h]

theorem splitRuns_cons_neg (P : Char → Bool) (c : Char) (cs : List Char)
    (h : P c = false) : splitRuns P (c :: cs) = [] :: splitRuns P cs := by
  simp [splitRuns, h]

theorem splitRuns_cons_pos (P : Char → Bool) (c : Char) (cs : List Char)
    (h : P c = true) :
    splitRuns P (c :: cs) =
      (c :: (splitRuns P cs).headD []) :: (splitRuns P cs).tail := by
  simp [splitRuns, h]

theorem splitRuns_append_sep (P : Char → Bool) (s : Char) (hs : P s = false) :
    ∀ a b : List Char, splitRuns P (a ++ s :: b) = splitRuns P a ++ splitRuns P b := by
  intro a b
  induction a with
  | nil => simp [splitRuns, hs]
  | cons c a ih =>
    by_cases hc : P c
    · rcases hh : splitRuns P a with _ | ⟨h1, t1⟩
      · exact absurd hh (splitRuns_ne_nil P a)
      · simp [List.cons_append, splitRuns_cons_pos P c _ hc, ih, hh]
    · simp only [Bool.not_eq_true] at hc
      simp [splitRuns_cons_neg P c _ hc, ih]

theorem splitRuns_all_pos (P : Char → Bool) :
    ∀ l : List Char, (∀ c ∈ l, P c = true) → splitRuns P l = [l] := by
  intro l hl
  induction l with
  | nil => simp [splitRuns]
  | cons c cs ih =>
    have hc : P c = true := hl c (by simp)
    have := ih (fun x hx => hl x (by simp [hx]))
    simp [splitRuns_cons_pos P c cs hc, this]

theorem length_mem_splitRuns (P : Char → Bool) :
    ∀ l r, r ∈ splitRuns P l → r.length ≤ l.length := by
  intro l
  induction l with
  | nil => intro r h; simp [splitRuns] at h; simp [h]
  | cons c cs ih =>
    intro r h
    by_cases hc : P c
    · rcases hh : splitRuns P cs with _ | ⟨h1, t1⟩
      · exact absurd hh (splitRuns_ne_nil P cs)
      · rw [splitRuns_cons_pos P c cs hc, hh] at h
        simp only [List.headD_cons, List.tail_cons, List.mem_cons] at h
        rcases h with h | h
        · subst h
          have := ih h1 (by rw [hh]; simp)
          simpa using Nat.succ_le_succ this
        · have := ih r (by rw [hh]; simp [h])
          simpa using Nat.le_succ_of_le this
    · simp only [Bool.not_eq_true] at hc
      rw [splitRuns_cons_neg P c cs hc] at h
      simp only [List.mem_cons] at h
      rcases h with h | h
      · simp [h]
      · exact Nat.le_succ_of_le (ih r h)

theorem mem_of_mem_splitRuns (P : Char → Bool) :
    ∀ l r c, r ∈ splitRuns P l → c ∈ r → c ∈ l := by
  intro l
  induction l with
  | nil => intro r c h hc; simp [splitRuns] at h; subst h; simp at hc
  | cons a cs ih =>
    intro r c h hc
    by_cases ha : P a
    · rcases hh : splitRuns P cs with _ | ⟨h1, t1⟩
      · exact absurd hh (splitRuns_ne_nil P cs)
      · rw [splitRuns_cons_pos P a cs ha, hh] at h
        simp only [List.headD_cons, List.tail_cons, List.mem_cons] at h
        rcases h with h | h
        · subst h
          rcases List.mem_cons.mp hc with h | h
          · simp [h]
          · exact List.mem_cons_of_mem a (ih h1 c (by rw [hh]; simp) h)
        · exact List.mem_cons_of_mem a (ih r c (by rw [hh]; simp [h]) hc)
    · simp only [Bool.not_eq_true] at ha
      rw [splitRuns_cons_neg P a cs ha] at h
      rcases List.mem_cons.mp h with h | h
      · subst h; simp at hc
      · exact List.mem_cons_of_mem a (ih r c h hc)

theorem pos_of_mem_splitRuns (P : Char → Bool) :
    ∀ l r c, r ∈ splitRuns P l → c ∈ r → P c = true := by
  intro l
  induction l with
  | nil => intro r c h hc; simp [splitRuns] at h; subst h; simp at hc
  | cons a cs ih =>
    intro r c h hc
    by_cases ha : P a
    · rcases hh : splitRuns P cs with _ | ⟨h1, t1⟩
      · exact absurd hh (splitRuns_ne_nil P cs)
      · rw [splitRuns_cons_pos P a cs ha, hh] at h
        simp only [List.headD_cons, List.tail_cons, List.mem_cons] at h
        rcases h with h | h
        · subst h
          rcases List.mem_cons.mp hc with h | h
          · subst h; exact ha
          · exact ih h1 c (by rw [hh]; simp) h
        · exact ih r c (by rw [hh]; simp [h]) hc
    · simp only [Bool.not_eq_true] at ha
      rw [splitRuns_cons_neg P a cs ha] at h
      rcases List.mem_cons.mp h with h | h
      · subst h; simp at hc
      · exact ih r c h hc

theorem findall8_nil (P : Char → Bool) : findall8 P [] = [] := by
  simp [findall8, splitRuns]

theorem findall8_cons_neg (P : Char → Bool) (c : Char) (l : List Char)
    (h : P c = false) : findall8 P (c :: l) = findall8 P l := by
  simp [findall8, splitRuns_cons_neg P c l h]

theorem findall8_append_sep (P : Char → Bool) (s : Char) (hs : P s = false)
    (a b : List Char) : findall8 P (a ++ s :: b) = findall8 P a ++ findall8 P b := by
  simp [findall8, splitRuns_append_sep P s hs a b]

theorem findall8_all_pos (P : Char → Bool) (l : List Char)
    (hl : ∀ c ∈ l, P c = true) (h8 : 8 ≤ l.length) : findall8 P l = [l] := by
  simp [findall8, splitRuns_all_pos P l hl, h8]

theorem findall8_short (P : Char → Bool) (l : List Char) (h : l.length < 8) :
    findall8 P l = [] := by
  rw [findall8, List.filter_eq_nil_iff]
  intro r hr
  have := length_mem_splitRuns P l r hr
  simp only [decide_eq_true_eq]
  omega

theorem sep_not_digit (c : Char) (h : isSep c = true) : isPyDigit c = false := by
  simp only [isSep, Bool.or_eq_true, decide_eq_true_eq] at h
  rcases h with h | h <;> subst h <;> decide

theorem sep_not_space (c : Char) (h : isSep c = true) : c ≠ ' ' := by
  simp only [isSep, Bool.or_eq_true, decide_eq_true_eq] at h
  rcases h with h | h <;> subst h <;> decide

theorem space_not_digit : isPyDigit ' ' = false := by decide

theorem stdGo_true_eq : ∀ l : List Char, stdGo true l = stdGo false (l.dropWhile isSep) := by
  intro l
  induction l with
  | nil => simp [stdGo]
  | cons c cs ih =>
    by_cases hc : isSep c
    · simp [stdGo, hc, ih, List.dropWhile_cons]
    · simp only [Bool.not_eq_true] at hc
      simp [stdGo, hc, List.dropWhile_cons]

theorem stdGo_nosep_append (a r : List Char) (ha : ∀ c ∈ a, isSep c = false) :
    stdGo false (a ++ r) = a ++ stdGo false r := by
  induction a with
  | nil => simp
  | cons c a ih =>
    have hc : isSep c = false := ha c (by simp)
    simp [stdGo, hc, ih (fun x hx => ha x (by simp [hx]))]

theorem mem_stdGo : ∀ (b : Bool) (l : List Char) (c : Char),
    c ∈ stdGo b l → c = ' ' ∨ c ∈ l := by
  intro b l
  induction l generalizing b with
  | nil => intro c h; simp [stdGo] at h
  | cons a cs ih =>
    intro c h
    by_cases ha : isSep a
    · cases b with
      | true =>
        simp only [stdGo, ha, if_true] at h
        rcases ih true c h with h | h
        · exact Or.inl h
        · exact Or.inr (List.mem_cons_of_mem a h)
      | false =>
        simp only [stdGo, ha, if_true, if_false, Bool.false_eq_true, List.mem_cons] at h
        rcases h with h | h
        · exact Or.inl h
        · rcases ih true c h with h | h
          · exact Or.inl h
          · exact Or.inr (List.mem_cons_of_mem a h)
    · simp only [Bool.not_eq_true] at ha
      simp only [stdGo, ha, Bool.false_eq_true, if_false, List.mem_cons] at h
      rcases h with h | h
      · exact Or.inr (by simp [h])
      · rcases ih false c h with h | h
        · exact Or.inl h
        · exact Or.inr (List.mem_cons_of_mem a h)

theorem length_dropWhile_le (p : Char → Bool) :
    ∀ l : List Char, (l.dropWhile p).length ≤ l.length := by
  intro l
  induction l with
  | nil => simp
  | cons c cs ih =>
    rw [List.dropWhile_cons]
    by_cases hc : p c
    · simp only [hc, if_true]
      exact Nat.le_succ_of_le ih
    · simp [hc]

theorem findall8_dropWhile_sep : ∀ l : List Char,
    findall8 isPyDigit (l.dropWhile isSep) = findall8 isPyDigit l := by
  intro l
  induction l with
  | nil => simp
  | cons c cs ih =>
    by_cases hc : isSep c
    · rw [List.dropWhile_cons]
      simp only [hc, if_true]
      rw [ih, findall8_cons_neg isPyDigit c cs (sep_not_digit c hc)]
    · simp only [Bool.not_eq_true] at hc
      rw [List.dropWhile_cons]
      simp [hc]

/-- Replacing the comma/newline runs by single spaces does not change
the set of digit runs of length at least 8. -/
theorem findall8_standardize : ∀ (n : Nat) (l : List Char), l.length ≤ n →
    findall8 isPyDigit (standardize l) = findall8 isPyDigit l := by
  intro n
  induction n with
  | zero =>
    intro l hl
    have : l = [] := List.length_eq_zero.mp (Nat.le_zero.mp hl)
    subst this; simp [standardize, stdGo]
  | succ n ih =>
    intro l hl
    rcases hr : l.dropWhile (fun c => !(isSep c)) with _ | ⟨s, b⟩
    · -- no separator in l: standardize l = l
      have hall : ∀ c ∈ l, isSep c = false := by
        intro c hc
        by_contra hne
        simp only [Bool.not_eq_false] at hne
        have htw : l.takeWhile (fun c => !(isSep c)) = l := by
          have := List.takeWhile_append_dropWhile (p := fun c => !(isSep c)) (l := l)
          rw [hr] at this; simpa using this
        have hmem : c ∈ l.takeWhile (fun c => !(isSep c)) := by rw [htw]; exact hc
        have := List.mem_takeWhile_imp (p := fun c => !(isSep c)) hmem
        simp [hne] at this
      have : standardize l = l := by
        have := stdGo_nosep_append l [] hall
        simpa [standardize, stdGo] using this
      rw [this]
    · -- l = a ++ s :: b with a separator-free and s a separator
      have hsplit : l.takeWhile (fun c => !(isSep c)) ++ s :: b = l := by
        have := List.takeWhile_append_dropWhile (p := fun c => !(isSep c)) (l := l)
        rw [hr] at this; exact this
      set a := l.takeWhile (fun c => !(isSep c)) with hadef
      have hasep : ∀ c ∈ a, isSep c = false := by
        intro c hc
        have := List.mem_takeWhile_imp hc
        simpa using this
      have hs : isSep s = true := by
        have : s ∈ l.dropWhile (fun c => !(isSep c)) := by rw [hr]; simp
        have hhead : ¬ (fun c => !(isSep c)) s = true := by
          intro hcon
          have hd := List.head?_dropWhile_not (fun c => !(isSep c)) l
          rw [hr] at hd
          simp only [List.head?_cons] at hd
          exact absurd hcon (by simpa using hd)
        simpa using hhead
      have hblen : b.length ≤ n := by
        have : l.length = a.length + (s :: b).length := by
          rw [← hsplit]; simp
        simp only [List.length_cons] at this
        omega
      calc findall8 isPyDigit (standardize l)
          = findall8 isPyDigit (standardize (a ++ s :: b)) := by rw [hsplit]
        _ = findall8 isPyDigit (a ++ ' ' :: standardize (b.dropWhile isSep)) := by
            rw [standardize, stdGo_nosep_append a (s :: b) hasep]
            simp only [stdGo, hs, if_true, Bool.false_eq_true, if_false]
            rw [stdGo_true_eq, ← standardize]
        _ = findall8 isPyDigit a ++ findall8 isPyDigit (standardize (b.dropWhile isSep)) :=
            findall8_append_sep isPyDigit ' ' space_not_digit a _
        _ = findall8 isPyDigit a ++ findall8 isPyDigit (b.dropWhile isSep) := by
            rw [ih (b.dropWhile isSep) (le_trans (length_dropWhile_le isSep b) hblen)]
        _ = findall8 isPyDigit a ++ findall8 isPyDigit b := by rw [findall8_dropWhile_sep]
        _ = findall8 isPyDigit (a ++ s :: b) :=
            (findall8_append_sep isPyDigit s (sep_not_digit s hs) a b).symm
        _ = findall8 isPyDigit l := by rw [hsplit]

/-- Extracting the digit runs piecewise after splitting on the
comma/newline characters yields the same runs as extracting them from
the whole field. -/
theorem flatMap_findall8_split : ∀ (n : Nat) (l : List Char), l.length ≤ n →
    (splitFieldPieces l).flatMap (findall8 isPyDigit) = findall8 isPyDigit l := by
  intro n
  induction n with
  | zero =>
    intro l hl
    have : l = [] := List.length_eq_zero.mp (Nat.le_zero.mp hl)
    subst this; simp [splitFieldPieces, splitRuns, findall8]
  | succ n ih =>
    intro l hl
    rcases hr : l.dropWhile (fun c => !(isSep c)) with _ | ⟨s, b⟩
    · have hall : ∀ c ∈ l, (fun c => !(isSep c)) c = true := by
        intro c hc
        have htw : l.takeWhile (fun c => !(isSep c)) = l := by
          have := List.takeWhile_append_dropWhile (p := fun c => !(isSep c)) (l := l)
          rw [hr] at this; simpa using this
        have hmem : c ∈ l.takeWhile (fun c => !(isSep c)) := by rw [htw]; exact hc
        exact List.mem_takeWhile_imp (p := fun c => !(isSep c)) hmem
      rw [splitFieldPieces, splitRuns_all_pos _ l hall]
      simp
    · have hsplit : l.takeWhile (fun c => !(isSep c)) ++ s :: b = l := by
        have := List.takeWhile_append_dropWhile (p := fun c => !(isSep c)) (l := l)
        rw [hr] at this; exact this
      set a := l.takeWhile (fun c => !(isSep c)) with hadef
      have hasep : ∀ c ∈ a, (fun c => !(isSep c)) c = true := by
        intro c hc
        exact List.mem_takeWhile_imp (p := fun c => !(isSep c)) hc
      have hs : isSep s = true := by
        have hd := List.head?_dropWhile_not (fun c => !(isSep c)) l
        rw [hr] at hd
        simp only [List.head?_cons] at hd
        simpa using hd
      have hblen : b.length ≤ n := by
        have : l.length = a.length + (s :: b).length := by
          rw [← hsplit]; simp
        simp only [List.length_cons] at this
        omega
      have hsneg : (fun c => !(isSep c)) s = false := by simp [hs]
      calc (splitFieldPieces l).flatMap (findall8 isPyDigit)
          = (splitFieldPieces (a ++ s :: b)).flatMap (findall8 isPyDigit) := by rw [hsplit]
        _ = (splitFieldPieces a ++ splitFieldPieces b).flatMap (findall8 isPyDigit) := by
            rw [splitFieldPieces, splitRuns_append_sep _ s hsneg a b]; rfl
        _ = (splitFieldPieces a).flatMap (findall8 isPyDigit)
              ++ (splitFieldPieces b).flatMap (findall8 isPyDigit) := by
            rw [List.flatMap_append]
        _ = (splitFieldPieces a).flatMap (findall8 isPyDigit) ++ findall8 isPyDigit b :=
            by rw [ih b hblen]
        _ = findall8 isPyDigit a ++ findall8 isPyDigit b := by
            rw [splitFieldPieces, splitRuns_all_pos _ a hasep]; simp
        _ = findall8 isPyDigit (a ++ s :: b) :=
            (findall8_append_sep isPyDigit s (sep_not_digit s hs) a b).symm
        _ = findall8 isPyDigit l := by rw [hsplit]

theorem convert_eq_map (l : List Char) : convert_arabic_numbers l = l.map convChar := by
  suffices h : ∀ (ps : List (Char × Char)) (l : List Char),
      ps.foldl (fun acc p => replaceAll p acc) l = l.map (fun c => ps.foldl applyPair c) by
    exact h arabicPairs l
  intro ps
  induction ps with
  | nil => intro l; simp
  | cons p ps ih =>
    intro l
    rw [List.foldl_cons, ih (replaceAll p l), replaceAll, List.map_map]
    rfl

/-- The keys of the replacement table. -/
def arabicKeys : List Char := arabicPairs.map Prod.fst

theorem convChar_of_not_key (c : Char) (h : c ∉ arabicKeys) : convChar c = c := by
  simp only [arabicKeys, arabicPairs, List.map_cons, List.map_nil, List.mem_cons,
    List.not_mem_nil, or_false, not_or] at h
  obtain ⟨h0, h1, h2, h3, h4, h5, h6, h7, h8, h9⟩ := h
  simp [convChar, arabicPairs, List.foldl, applyPair, h0, h1, h2, h3, h4, h5, h6, h7, h8, h9]

theorem convChar_not_key (c : Char) : convChar c ∉ arabicKeys := by
  by_cases h : c ∈ arabicKeys
  · simp only [arabicKeys, arabicPairs, List.map_cons, List.map_nil, List.mem_cons,
      List.not_mem_nil, or_false] at h
    rcases h with h | h | h | h | h | h | h | h | h | h <;> subst h <;> decide
  · rw [convChar_of_not_key c h]; exact h

theorem convChar_idem (c : Char) : convChar (convChar c) = convChar c :=
  convChar_of_not_key (convChar c) (convChar_not_key c)

theorem isSep_convChar (c : Char) : isSep (convChar c) = isSep c := by
  by_cases h : c ∈ arabicKeys
  · simp only [arabicKeys, arabicPairs, List.map_cons, List.map_nil, List.mem_cons,
      List.not_mem_nil, or_false] at h
    rcases h with h | h | h | h | h | h | h | h | h | h <;> subst h <;> decide
  · rw [convChar_of_not_key c h]

theorem mem_pyDedupAux : ∀ (l : List (List Char)) (seen : List (List Char)) (x : List Char),
    x ∈ pyDedupAux seen l → x ∈ l ∧ x ∉ seen := by
  intro l
  induction l with
  | nil => intro seen x h; simp [pyDedupAux] at h
  | cons a rest ih =>
    intro seen x h
    by_cases ha : a ∈ seen
    · simp only [pyDedupAux, if_pos ha] at h
      have := ih seen x h
      exact ⟨List.mem_cons_of_mem a this.1, this.2⟩
    · simp only [pyDedupAux, if_neg ha, List.mem_cons] at h
      rcases h with h | h
      · subst h; exact ⟨by simp, ha⟩
      · have := ih (a :: seen) x h
        refine ⟨List.mem_cons_of_mem a this.1, fun hx => this.2 (List.mem_cons_of_mem a hx)⟩

theorem nodup_pyDedupAux : ∀ (l : List (List Char)) (seen : List (List Char)),
    (pyDedupAux seen l).Nodup := by
  intro l
  induction l with
  | nil => intro seen; simp [pyDedupAux]
  | cons a rest ih =>
    intro seen
    by_cases ha : a ∈ seen
    · simpa [pyDedupAux, if_pos ha] using ih seen
    · simp only [pyDedupAux, if_neg ha]
      refine List.nodup_cons.mpr ⟨fun hmem => ?_, ih (a :: seen)⟩
      exact (mem_pyDedupAux rest (a :: seen) a hmem).2 (by simp)

theorem pyDedupAux_of_nodup : ∀ (l : List (List Char)) (seen : List (List Char)),
    l.Nodup → (∀ x ∈ l, x ∉ seen) → pyDedupAux seen l = l := by
  intro l
  induction l with
  | nil => intro seen _ _; rfl
  | cons a rest ih =>
    intro seen hnd hout
    have ha : a ∉ seen := hout a (by simp)
    simp only [pyDedupAux, if_neg ha]
    have hnd' := List.nodup_cons.mp hnd
    congr 1
    refine ih (a :: seen) hnd'.2 ?_
    intro x hx
    simp only [List.mem_cons, not_or]
    exact ⟨fun he => hnd'.1 (he ▸ hx), hout x (List.mem_cons_of_mem a hx)⟩

theorem nodup_pyDedup (l : List (List Char)) : (pyDedup l).Nodup :=
  nodup_pyDedupAux l []

theorem mem_pyDedup (l : List (List Char)) (x : List Char) (h : x ∈ pyDedup l) : x ∈ l :=
  (mem_pyDedupAux l [] x h).1

theorem pyDedup_of_nodup (l : List (List Char)) (h : l.Nodup) : pyDedup l = l :=
  pyDedupAux_of_nodup l [] h (by simp)

theorem joinWith_cons₂ (s : Char) (r r2 : List Char) (rest : List (List Char)) :
    joinWith s (r :: r2 :: rest) = r ++ s :: joinWith s (r2 :: rest) := rfl

theorem mem_joinWith : ∀ (s : Char) (codes : List (List Char)) (c : Char),
    c ∈ joinWith s codes → c = s ∨ ∃ r ∈ codes, c ∈ r := by
  intro s codes
  induction codes with
  | nil => intro c h; simp [joinWith] at h
  | cons r rest ih =>
    intro c h
    cases rest with
    | nil =>
      simp only [joinWith] at h
      exact Or.inr ⟨r, by simp, h⟩
    | cons r2 rest2 =>
      rw [joinWith_cons₂] at h
      rcases List.mem_append.mp h with h | h
      · exact Or.inr ⟨r, by simp, h⟩
      · rcases List.mem_cons.mp h with h | h
        · exact Or.inl h
        · rcases ih c h with h | ⟨q, hq, hc⟩
          · exact Or.inl h
          · exact Or.inr ⟨q, List.mem_cons_of_mem r hq, hc⟩

theorem digit_not_sep (c : Char) (h : isPyDigit c = true) : isSep c = false := by
  by_contra hs
  simp only [Bool.not_eq_false] at hs
  rw [sep_not_digit c hs] at h
  exact Bool.false_ne_true h

/-- Shape of every code produced by clean_backup_codes: exactly 8
characters, each a digit fixed by the Arabic-digit normalization. -/
def GoodCode (r : List Char) : Prop :=
  r.length = 8 ∧ ∀ c ∈ r, isPyDigit c = true ∧ convChar c = c

theorem clean_output_good (l : List Char) :
    ∀ r ∈ pyDedup ((findall8 isPyDigit (standardize (convert_arabic_numbers l))).map last8),
      GoodCode r := by
  intro r hr
  rcases List.mem_map.mp (mem_pyDedup _ r hr) with ⟨r0, hr0, hlast⟩
  rw [findall8] at hr0
  have hfil := List.mem_filter.mp hr0
  have hlen : 8 ≤ r0.length := by simpa using hfil.2
  have hmemsplit := hfil.1
  constructor
  · rw [← hlast, last8, List.length_drop]
    omega
  · intro c hc
    have hcr0 : c ∈ r0 := by
      rw [← hlast] at hc
      exact List.mem_of_mem_drop hc
    have hdig : isPyDigit c = true :=
      pos_of_mem_splitRuns isPyDigit _ r0 c hmemsplit hcr0
    refine ⟨hdig, ?_⟩
    have hx : c ∈ standardize (convert_arabic_numbers l) :=
      mem_of_mem_splitRuns isPyDigit _ r0 c hmemsplit hcr0
    rcases mem_stdGo false (convert_arabic_numbers l) c hx with hsp | hcv
    · rw [hsp] at hdig
      rw [space_not_digit] at hdig
      exact absurd hdig (by simp)
    · rw [convert_eq_map] at hcv
      rcases List.mem_map.mp hcv with ⟨c0, _, hc0⟩
      rw [← hc0]
      exact convChar_idem c0

theorem std_join : ∀ codes : List (List Char),
    (∀ r ∈ codes, r ≠ [] ∧ ∀ c ∈ r, isSep c = false) →
    standardize (joinWith ',' codes) = joinWith ' ' codes := by
  intro codes
  induction codes with
  | nil => intro _; rfl
  | cons r rest ih =>
    intro h
    have hr := h r (by simp)
    cases rest with
    | nil =>
      show standardize r = r
      rw [standardize]
      have := stdGo_nosep_append r [] hr.2
      simpa [stdGo] using this
    | cons r2 rest2 =>
      have hr2 := h r2 (by simp)
      have hdw : List.dropWhile isSep (joinWith ',' (r2 :: rest2))
          = joinWith ',' (r2 :: rest2) := by
        rcases hr2 with ⟨hne, hsepfree⟩
        rcases hhd : r2 with _ | ⟨c2, r2t⟩
        · exact absurd hhd hne
        · have hc2 : isSep c2 = false := hsepfree c2 (by rw [hhd]; simp)
          cases rest2 with
          | nil =>
            show List.dropWhile isSep (c2 :: r2t) = c2 :: r2t
            simp [List.dropWhile_cons, hc2]
          | cons r3 rest3 =>
            rw [joinWith_cons₂]
            simp [List.cons_append, List.dropWhile_cons, hc2]
      have hih : stdGo false (joinWith ',' (r2 :: rest2)) = joinWith ' ' (r2 :: rest2) :=
        ih (fun q hq => h q (List.mem_cons_of_mem r hq))
      rw [joinWith_cons₂, joinWith_cons₂, standardize, stdGo_nosep_append r _ hr.2]
      have hcomma : isSep ',' = true := by decide
      simp only [stdGo, hcomma, if_true, Bool.false_eq_true, if_false]
      rw [stdGo_true_eq, hdw, hih]

theorem findall8_join : ∀ codes : List (List Char),
    (∀ r ∈ codes, 8 ≤ r.length ∧ ∀ c ∈ r, isPyDigit c = true) →
    findall8 isPyDigit (joinWith ' ' codes) = codes := by
  intro codes
  induction codes with
  | nil => intro _; simp [joinWith, findall8, splitRuns]
  | cons r rest ih =>
    intro h
    have hr := h r (by simp)
    cases rest with
    | nil =>
      show findall8 isPyDigit r = [r]
      exact findall8_all_pos isPyDigit r hr.2 hr.1
    | cons r2 rest2 =>
      rw [joinWith_cons₂, findall8_append_sep isPyDigit ' ' space_not_digit,
        findall8_all_pos isPyDigit r hr.2 hr.1,
        ih (fun q hq => h q (List.mem_cons_of_mem r hq))]
      rfl

/-- clean_backup_codes is the identity on its own canonical output. -/
theorem clean_canonical (codes : List (List Char)) (hg : ∀ r ∈ codes, GoodCode r)
    (hnd : codes.Nodup) :
    clean_backup_codes (joinWith ',' codes) = joinWith ',' codes := by
  have h1 : convert_arabic_numbers (joinWith ',' codes) = joinWith ',' codes := by
    rw [convert_eq_map]
    rw [List.map_congr_left (g := fun c => c) ?_]
    · simp
    · intro c hc
      rcases mem_joinWith ',' codes c hc with hcomma | ⟨q, hq, hcq⟩
      · rw [hcomma]; decide
      · exact ((hg q hq).2 c hcq).2
  have h2 : standardize (joinWith ',' codes) = joinWith ' ' codes := by
    refine std_join codes ?_
    intro q hq
    have hgq := hg q hq
    refine ⟨fun he => ?_, fun c hc => digit_not_sep c ((hgq.2 c hc).1)⟩
    have h8 := hgq.1
    rw [he] at h8
    simp at h8
  have h3 : findall8 isPyDigit (joinWith ' ' codes) = codes := by
    refine findall8_join codes ?_
    intro q hq
    have hgq := hg q hq
    exact ⟨hgq.1.symm.le, fun c hc => (hgq.2 c hc).1⟩
  have h4 : codes.map last8 = codes := by
    rw [List.map_congr_left (g := fun r => r) ?_]
    · simp
    · intro q hq
      have := (hg q hq).1
      show last8 q = q
      rw [last8, this]
      simp
  have h5 : pyDedup codes = codes := pyDedup_of_nodup codes hnd
  rw [clean_backup_codes, h1, h2, h3, h4, h5]

/-- The classification detect_field_type can return. -/
inductive FieldType where
  | email
  | backup
  | trigger
  | password
deriving DecidableEq, Repr

/-- detect_field_type: ordered heuristics on one input field.  Returns
none for an empty / whitespace-only field (Python returns (None, None)),
otherwise the classification together with the value the caller
receives (the stripped field; normalized for the backup branches). -/
def detect_field_type (value : List Char) : Option (FieldType × List Char) :=
  let v := pyStrip value
  if v = [] then none
  else if '@' ∈ v ∧ '.' ∈ v then some (.email, v)
  else
    let vn := convert_arabic_numbers v
    if ',' ∈ vn then some (.backup, vn)
    else if findall8 isPyDigit vn ≠ [] then some (.backup, vn)
    else if 16 ≤ (vn.filter isPyDigit).length then some (.backup, vn)
    else if 1 ≤ v.length ∧ v.length ≤ 4 then some (.trigger, v)
    else some (.password, v)

/-- The dict parse_inputs builds: each field key starts as None. -/
structure ParsedData where
  email : Option (List Char)
  password : Option (List Char)
  backup : Option (List Char)
  has_trigger : Bool
deriving DecidableEq, Repr

/-- The initial parse dictionary. -/
def emptyParsed : ParsedData := ⟨none, none, none, false⟩

/-- One iteration of the parse_inputs loop body on one field. -/
def applyField (d : ParsedData) (field : List Char) : ParsedData :=
  if field = [] then d
  else
    match detect_field_type field with
    | none => d
    | some (.trigger, _) => { d with has_trigger := true }
    | some (.backup, v) => { d with backup := some (clean_backup_codes v) }
    | some (.email, v) => if v ≠ [] then { d with email := some v } else d
    | some (.password, v) => if v ≠ [] then { d with password := some v } else d

/-- parse_inputs: fold the loop body over the three fields in order. -/
def parse_inputs (field1 field2 field3 : List Char) : ParsedData :=
  applyField (applyField (applyField emptyParsed field1) field2) field3

/-- The current remote account state assembled by get_account_data
from the data array of the JSON response. -/
structure AccountRecord where
  email : List Char
  password : List Char
  backup : List Char
  group : List Char
deriving DecidableEq, Repr

/-- The response-shape check and field extraction of get_account_data:
reject an empty array or one with fewer than 3 entries, then read the
fields at indices 1, 2, 3 and 6, substituting defaults for missing
indices. -/
def parseAccountData (data : List (List Char)) : Option AccountRecord :=
  if data = [] ∨ data.length < 3 then none
  else
    some
      { email := if 1 < data.length then data.getD 1 [] else []
        password := if 2 < data.length then data.getD 2 [] else []
        backup := if 3 < data.length then data.getD 3 [] else []
        group := if 6 < data.length then data.getD 6 [] else ("1111").toList }

/-- Python x or y on an optional string: y when x is None or empty. -/
def pyOr (a : Option (List Char)) (b : List Char) : List Char :=
  match a with
  | none => b
  | some s => if s = [] then b else s

/-- The final_data merge of smart_edit_account (lines 313-318): each of
email, password and backup is parsed-value or current-value under
Python truthiness, and group is always the fetched current group. -/
def mergeData (parsed : ParsedData) (current : AccountRecord) : AccountRecord :=
  { email := pyOr parsed.email current.email
    password := pyOr parsed.password current.password
    backup := pyOr parsed.backup current.backup
    group := current.group }

/-- The account fields of the JSON body edit_account posts
(the constant fields amountToTake, priority, ... are omitted). -/
structure EditPayload where
  email : List Char
  password : List Char
  backupCodes : List Char
  groupName : List Char
deriving DecidableEq, Repr

/-- The edit_payload construction of edit_account: backupCodes is
final_data["backup"] or "", groupName is final_data.get("group",
"1111") (the key is always present in the merged dict). -/
def mkEditPayload (final : AccountRecord) : EditPayload :=
  { email := final.email
    password := final.password
    backupCodes := if final.backup = [] then [] else final.backup
    groupName := final.group }

/-- Outcome of one POST to /dataFunctions/getAccountData: either a
transport/JSON exception (caught by the try block) or an HTTP response
with a status and the parsed data array (result.get("data", [])). -/
inductive FetchOutcome where
  | exn (msg : List Char)
  | resp (status : Nat) (data : List (List Char))

/-- Outcome of one POST to /dataFunctions/editAccount: either an
exception (caught, message str(e)) or an HTTP response whose body text
is read. -/
inductive EditOutcome where
  | exn (msg : List Char)
  | resp (status : Nat) (text : List Char)

/-- The network environment the orchestrator runs against: the cached
CSRF token (None until first fetched), the token a refresh would
scrape, and the two endpoints as oracles indexed by how many POSTs have
been made to each so far. -/
structure NetState where
  cachedToken : Option Nat
  freshToken : Nat
  fetchServer : Nat → FetchOutcome
  fetchCount : Nat
  editServer : Nat → EditPayload → EditOutcome
  editCount : Nat

/-- csrf_manager.get_token(): return the cached token if present,
otherwise refresh once and cache the result.  Returns the token, the
new state and the number of refreshes performed (0 or 1). -/
def getTokenM (n : NetState) : Nat × NetState × Nat :=
  match n.cachedToken with
  | some t => (t, n, 0)
  | none => (n.freshToken, { n with cachedToken := some n.freshToken }, 1)

/-- Result of get_account_data: the parsed record (None on any
failure), the network state afterwards, and how many POSTs and token
refreshes the call performed. -/
structure FetchRes where
  record : Option AccountRecord
  net : NetState
  postsUsed : Nat
  refreshes : Nat

/-- get_account_data: acquire a CSRF token, make a single POST, return
None on exception, on a non-200 status, or on a too-short data array;
otherwise the extracted record.  The source contains no retry loop and
no status-dependent token invalidation. -/
def get_account_data (n : NetState) : FetchRes :=
  let t := getTokenM n
  let n1 := t.2.1
  let out := n1.fetchServer n1.fetchCount
  let n2 := { n1 with fetchCount := n1.fetchCount + 1 }
  match out with
  | .exn _ => ⟨none, n2, 1, t.2.2⟩
  | .resp status data =>
    if status ≠ 200 then ⟨none, n2, 1, t.2.2⟩
    else ⟨parseAccountData data, n2, 1, t.2.2⟩

/-- Result of edit_account: the (success, message) pair returned to the
caller and the network state afterwards. -/
structure EditRes where
  ok : Bool
  msg : List Char
  net : NetState

/-- edit_account: acquire a CSRF token, POST the payload once, return
(False, str(e)) on exception, (True, body) on status 200 and
(False, body) otherwise.  No retry, no truncation of the body. -/
def edit_account (n : NetState) (payload : EditPayload) : EditRes :=
  let t := getTokenM n
  let n1 := t.2.1
  let out := n1.editServer n1.editCount payload
  let n2 := { n1 with editCount := n1.editCount + 1 }
  match out with
  | .exn m => ⟨false, m, n2⟩
  | .resp status text =>
    if status = 200 then ⟨true, text, n2⟩ else ⟨false, text, n2⟩

/-- The Arabic failure message smart_edit_account returns when the
fetch of current data yields None. -/
def fetchFailMsg : List Char := ("فشل جلب البيانات").toList

/-- smart_edit_account: parse the three fields, fetch the current
record, on failure return (False, fetchFailMsg); otherwise merge,
build the payload and submit it, passing edit_account's (success,
message) through unchanged. -/
def smart_edit_account (field1 field2 field3 : List Char) (n : NetState) :
    Bool × List Char × NetState :=
  let parsed := parse_inputs field1 field2 field3
  let fr := get_account_data n
  match fr.record with
  | none => (false, fetchFailMsg, fr.net)
  | some current =>
    let final := mergeData parsed current
    let er := edit_account fr.net (mkEditPayload final)
    (er.ok, er.msg, er.net)

/-- parse_inputs never stores an empty string as email or password:
detect_field_type only returns those classifications with the nonempty
stripped field as value, and the assignment is guarded by Python
truthiness of the value. -/
def ParsedWF (d : ParsedData) : Prop :=
  (∀ v, d.email = some v → v ≠ []) ∧ (∀ v, d.password = some v → v ≠ [])

theorem applyField_wf (d : ParsedData) (field : List Char) (h : ParsedWF d) :
    ParsedWF (applyField d field) := by
  unfold applyField
  by_cases hf : field = []
  · rw [if_pos hf]; exact h
  rw [if_neg hf]
  rcases hdet : detect_field_type field with _ | ⟨ft, v⟩
  · exact h
  cases ft with
  | trigger => exact ⟨h.1, h.2⟩
  | backup => exact ⟨h.1, h.2⟩
  | email =>
    by_cases hv : v = []
    · simp only [hv, ne_eq, not_true_eq_false, Bool.false_eq_true, if_false]
      exact h
    · simp only [ne_eq, hv, not_false_eq_true, if_true]
      refine ⟨fun w hw => ?_, h.2⟩
      injection hw with hw
      rw [← hw]; exact hv
  | password =>
    by_cases hv : v = []
    · simp only [hv, ne_eq, not_true_eq_false, Bool.false_eq_true, if_false]
      exact h
    · simp only [ne_eq, hv, not_false_eq_true, if_true]
      refine ⟨h.1, fun w hw => ?_⟩
      injection hw with hw
      rw [← hw]; exact hv

theorem parse_inputs_wf (f1 f2 f3 : List Char) : ParsedWF (parse_inputs f1 f2 f3) :=
  applyField_wf _ f3 (applyField_wf _ f2 (applyField_wf _ f1
    ⟨fun v h => by simp [emptyParsed] at h, fun v h => by simp [emptyParsed] at h⟩))

theorem pyOr_getD (a : Option (List Char)) (b : List Char) (h : a ≠ some []) :
    pyOr a b = a.getD b := by
  cases a with
  | none => rfl
  | some s =>
    have hs : s ≠ [] := fun he => h (by rw [he])
    simp [pyOr, hs]

theorem mkEditPayload_eq (final : AccountRecord) :
    mkEditPayload final = ⟨final.email, final.password, final.backup, final.group⟩ := by
  by_cases hb : final.backup = [] <;> simp [mkEditPayload, hb]

theorem getTokenM_frame (n : NetState) :
    (getTokenM n).2.1.fetchServer = n.fetchServer ∧
    (getTokenM n).2.1.fetchCount = n.fetchCount ∧
    (getTokenM n).2.1.editServer = n.editServer ∧
    (getTokenM n).2.1.editCount = n.editCount ∧
    (getTokenM n).2.1.freshToken = n.freshToken := by
  cases h : n.cachedToken <;> simp [getTokenM, h]

theorem getTokenM_cached (n : NetState) (t : Nat) (h : n.cachedToken = some t) :
    (getTokenM n).2.1 = n := by
  simp [getTokenM, h]

theorem get_account_data_eval (n : NetState) :
    (get_account_data n).record =
      (match n.fetchServer n.fetchCount with
        | .exn _ => none
        | .resp status data => if status ≠ 200 then none else parseAccountData data) ∧
    (get_account_data n).postsUsed = 1 ∧
    (get_account_data n).net.fetchCount = n.fetchCount + 1 ∧
    (get_account_data n).net.fetchServer = n.fetchServer ∧
    (get_account_data n).net.editServer = n.editServer ∧
    (get_account_data n).net.editCount = n.editCount := by
  cases ht : n.cachedToken <;>
    cases hout : n.fetchServer n.fetchCount <;>
      simp [get_account_data, getTokenM, ht, hout] <;> split <;> simp

theorem edit_account_exn (m : NetState) (p : EditPayload) (em : List Char)
    (h : m.editServer m.editCount p = EditOutcome.exn em) :
    (edit_account m p).ok = false ∧ (edit_account m p).msg = em := by
  cases hc : m.cachedToken <;> simp [edit_account, getTokenM, hc, h]

theorem edit_account_resp (m : NetState) (p : EditPayload) (s : Nat) (t : List Char)
    (h : m.editServer m.editCount p = EditOutcome.resp s t) :
    (edit_account m p).ok = decide (s = 200) ∧ (edit_account m p).msg = t := by
  cases hc : m.cachedToken <;> simp [edit_account, getTokenM, hc, h] <;>
    by_cases hs : s = 200 <;> simp [hs]

end SenderBot

namespace ErrorNotifier

/-- The configuration values the tracker reads (sheets_error_notifications
section of the config; the getter defaults are irrelevant to the
claims).  Times are modelled as integers (seconds). -/
structure NotifierConfig where
  enabled : Bool
  resend_interval : Int
  max_fast_retries : Nat
  slow_resend_interval : Int
  auto_resolve_timeout : Int
deriving DecidableEq, Repr

/-- One entry of the _active_errors dict. -/
structure ErrorInfo where
  first_seen : Int
  last_sent : Int
  last_occurrence : Int
  count : Nat
  worker : List Char
  operation : List Char
  error_type : List Char
  details : List Char
deriving DecidableEq, Repr

instance : Nonempty ErrorInfo := ⟨⟨0, 0, 0, 0, [], [], [], []⟩⟩

/-- An outbound Telegram notification, abstracted to the data that
parameterizes the message template. -/
structure Notification where
  key : List Char
  attempt : Nat
  is_resolved : Bool
deriving DecidableEq, Repr

/-- The _active_errors dict: an association list with unique keys, in
insertion order (Python dict iteration order). -/
abbrev ErrState := List (List Char × ErrorInfo)

/-- Dict membership / item access for an error key. -/
def lookupKey (K : List Char) : ErrState → Option ErrorInfo
  | [] => none
  | e :: rest => if e.1 = K then some e.2 else lookupKey K rest

/-- generate_error_key: "worker:operation:error_type". -/
def generate_error_key (worker operation error_type : List Char) : List Char :=
  worker ++ ':' :: operation ++ ':' :: error_type

/-- track_error at time now: disabled means no state change and no
notification; a new key is inserted with all three timestamps = now and
count 1 and one attempt-1 notification is sent; an existing key only
has its last_occurrence and details updated. -/
def track_error (cfg : NotifierConfig) (st : ErrState)
    (worker operation error_type details : List Char) (now : Int) :
    ErrState × List Notification :=
  if !cfg.enabled then (st, [])
  else
    let K := generate_error_key worker operation error_type
    match lookupKey K st with
    | none =>
      (st ++ [(K, ⟨now, now, now, 1, worker, operation, error_type, details⟩)],
        [⟨K, 1, false⟩])
    | some _ =>
      (st.map (fun e =>
        if e.1 = K then (e.1, { e.2 with last_occurrence := now, details := details })
        else e), [])

/-- The auto-resolve condition of check_resolved_errors. -/
def resolvedCond (cfg : NotifierConfig) (now : Int) (info : ErrorInfo) : Bool :=
  decide (cfg.auto_resolve_timeout ≤ now - info.last_occurrence)

/-- check_resolved_errors at time now: for every entry silent for at
least auto_resolve_timeout seconds, send one resolved notification
(attempt = stored count) and delete the entry; iteration order is dict
order. -/
def check_resolved_errors (cfg : NotifierConfig) (st : ErrState) (now : Int) :
    ErrState × List Notification :=
  if !cfg.enabled then (st, [])
  else
    (st.filter (fun e => !resolvedCond cfg now e.2),
      (st.filter (fun e => resolvedCond cfg now e.2)).map
        (fun e => ⟨e.1, e.2.count, true⟩))

/-- The resend interval applicable to an entry: the slow interval once
count reached max_fast_retries, the fast interval before. -/
def resendInterval (cfg : NotifierConfig) (count : Nat) : Int :=
  if cfg.max_fast_retries ≤ count then cfg.slow_resend_interval
  else cfg.resend_interval

/-- The resend condition of resend_notifications. -/
def resendCond (cfg : NotifierConfig) (now : Int) (info : ErrorInfo) : Bool :=
  decide (resendInterval cfg info.count ≤ now - info.last_sent)

/-- resend_notifications at time now: every entry whose interval has
elapsed since last_sent gets count incremented, last_sent set to now,
and one notification with the incremented count as attempt. -/
def resend_notifications (cfg : NotifierConfig) (st : ErrState) (now : Int) :
    ErrState × List Notification :=
  if !cfg.enabled then (st, [])
  else
    (st.map (fun e =>
      if resendCond cfg now e.2 then
        (e.1, { e.2 with count := e.2.count + 1, last_sent := now })
      else e),
      (st.filter (fun e => resendCond cfg now e.2)).map
        (fun e => ⟨e.1, e.2.count + 1, false⟩))

theorem lookupKey_not_mem (K : List Char) :
    ∀ st : ErrState, lookupKey K st = none → ∀ e ∈ st, e.1 ≠ K := by
  intro st
  induction st with
  | nil => intro _ e he; simp at he
  | cons a rest ih =>
    intro h e he
    by_cases ha : a.1 = K
    · rw [lookupKey, if_pos ha] at h; exact absurd h (by simp)
    · rw [lookupKey, if_neg ha] at h
      rcases List.mem_cons.mp he with he | he
      · rw [he]; exact ha
      · exact ih h e he

theorem lookupKey_entries (K : List Char) (info : ErrorInfo) :
    ∀ st : ErrState, (st.map Prod.fst).Nodup → lookupKey K st = some info →
      (K, info) ∈ st ∧ ∀ e ∈ st, e.1 = K → e = (K, info) := by
  intro st
  induction st with
  | nil => intro _ h; simp [lookupKey] at h
  | cons a rest ih =>
    intro hnd h
    have hnd2 : (a.1 :: rest.map Prod.fst).Nodup := by rw [List.map_cons] at hnd; exact hnd
    have hnd' := List.nodup_cons.mp hnd2
    by_cases ha : a.1 = K
    · rw [lookupKey, if_pos ha] at h
      injection h with h
      have haK : a = (K, info) := by
        rcases a with ⟨k, v⟩
        simp only at ha h
        rw [ha, h]
      refine ⟨by rw [haK]; simp, ?_⟩
      intro e he heK
      rcases List.mem_cons.mp he with he | he
      · rw [he, haK]
      · exfalso
        refine hnd'.1 ?_
        rw [ha]
        rw [← heK]
        exact List.mem_map_of_mem Prod.fst he
    · rw [lookupKey, if_neg ha] at h
      have := ih hnd'.2 h
      refine ⟨List.mem_cons_of_mem a this.1, ?_⟩
      intro e he heK
      rcases List.mem_cons.mp he with he | he
      · exact absurd (he ▸ heK) ha
      · exact this.2 e he heK

theorem filter_map_key_nil (K : List Char) (P : List Char × ErrorInfo → Bool)
    (mk : List Char × ErrorInfo → Notification) (hk : ∀ e, (mk e).key = e.1) :
    ∀ st : ErrState, (∀ e ∈ st, e.1 = K → P e = false) →
      ((st.filter P).map mk).filter (fun nt => decide (nt.key = K)) = [] := by
  intro st
  induction st with
  | nil => intro _; rfl
  | cons a rest ih =>
    intro h
    have hrest := ih (fun e he => h e (List.mem_cons_of_mem a he))
    by_cases hP : P a
    · have haK : a.1 ≠ K := fun he => by
        rw [h a (by simp) he] at hP
        exact Bool.false_ne_true hP
      rw [List.filter_cons_of_pos hP, List.map_cons, List.filter_cons_of_neg (by simp [hk a, haK]),
        hrest]
    · rw [List.filter_cons_of_neg (by simpa using hP), hrest]

theorem filter_map_key_single (K : List Char) (info : ErrorInfo)
    (P : List Char × ErrorInfo → Bool) (mk : List Char × ErrorInfo → Notification)
    (hk : ∀ e, (mk e).key = e.1) :
    ∀ st : ErrState, (st.map Prod.fst).Nodup → (K, info) ∈ st →
      (∀ e ∈ st, e.1 = K → e = (K, info)) → P (K, info) = true →
      ((st.filter P).map mk).filter (fun nt => decide (nt.key = K)) = [mk (K, info)] := by
  intro st
  induction st with
  | nil => intro _ h; simp at h
  | cons a rest ih =>
    intro hnd hmem huniq hP
    have hnd2 : (a.1 :: rest.map Prod.fst).Nodup := by rw [List.map_cons] at hnd; exact hnd
    have hnd' := List.nodup_cons.mp hnd2
    by_cases ha : a.1 = K
    · have haeq : a = (K, info) := huniq a (by simp) ha
      have hnoK : ∀ e ∈ rest, e.1 = K → P e = false := by
        intro e he heK
        exfalso
        refine hnd'.1 ?_
        rw [ha, ← heK]
        exact List.mem_map_of_mem Prod.fst he
      rw [haeq, List.filter_cons_of_pos hP, List.map_cons,
        List.filter_cons_of_pos (by simp [hk]),
        filter_map_key_nil K P mk hk rest hnoK]
    · have hmem' : (K, info) ∈ rest := by
        rcases List.mem_cons.mp hmem with he | he
        · exact absurd (by rw [← he]) ha
        · exact he
      have hrest := ih hnd'.2 hmem' (fun e he => huniq e (List.mem_cons_of_mem a he)) hP
      by_cases hPa : P a
      · rw [List.filter_cons_of_pos hPa, List.map_cons,
          List.filter_cons_of_neg (by simp [hk a, ha]), hrest]
      · rw [List.filter_cons_of_neg (by simpa using hPa), hrest]

theorem lookupKey_filter_none (K : List Char) (P : List Char × ErrorInfo → Bool) :
    ∀ st : ErrState, (∀ e ∈ st, e.1 = K → P e = true) →
      lookupKey K (st.filter (fun e => !P e)) = none := by
  intro st
  induction st with
  | nil => intro _; rfl
  | cons a rest ih =>
    intro h
    have hrest := ih (fun e he => h e (List.mem_cons_of_mem a he))
    by_cases ha : a.1 = K
    · rw [List.filter_cons_of_neg (by simp [h a (by simp) ha]), hrest]
    · by_cases hPa : P a
      · rw [List.filter_cons_of_neg (by simp [hPa]), hrest]
      · rw [List.filter_cons_of_pos (by simpa using hPa), lookupKey, if_neg ha, hrest]

end ErrorNotifier

namespace EditConcurrency

/-- The suspension-point structure of one smart_edit_account call:
ready (not yet entered the network phase), fetching (awaiting
get_account_data), editing (awaiting edit_account), done.  The source
contains no admission gate, so a task may always advance. -/
inductive Phase where
  | ready
  | fetching
  | editing
  | done
deriving DecidableEq, Repr

/-- A task is in flight while it performs network work. -/
def inFlight : Phase → Bool
  | .fetching => true
  | .editing => true
  | _ => false

/-- Advance one task to its next suspension point. -/
def stepPhase : Phase → Phase
  | .ready => .fetching
  | .fetching => .editing
  | .editing => .done
  | .done => .done

/-- Resume task i (the event loop may pick any task, since
smart_edit_account acquires no semaphore before fetching). -/
def stepAt (s : List Phase) (i : Nat) : List Phase :=
  s.set i (stepPhase (s.getD i .done))

/-- States reachable by the event loop from three pending edit calls. -/
inductive Reach : List Phase → Prop where
  | init : Reach [.ready, .ready, .ready]
  | step (s : List Phase) (i : Nat) : Reach s → Reach (stepAt s i)

/-- Number of edits in flight. -/
def inFlightCount (s : List Phase) : Nat := (s.filter inFlight).length

end EditConcurrency

section Claims

open SenderBot ErrorNotifier EditConcurrency

/-- The stated form of claim C1: every merged field equals the parsed
field when that parsed field is set (Some), otherwise the fetched
current value, and the group is always the current group. -/
def statedClaimC1 : Prop :=
  ∀ (f1 f2 f3 : List Char) (cur : AccountRecord),
    mergeData (parse_inputs f1 f2 f3) cur =
      { email := (parse_inputs f1 f2 f3).email.getD cur.email
        password := (parse_inputs f1 f2 f3).password.getD cur.password
        backup := (parse_inputs f1 f2 f3).backup.getD cur.backup
        group := cur.group }

/-- C1 fails as stated: the field "1,2" is classified as backup codes
and cleans to the empty string, so parsed backup is set to "", yet the
Python or-merge falls back to the fetched backup value instead of
submitting "". -/
theorem claim_C1_counterexample : ¬ statedClaimC1 := fun h =>
  absurd
    (h ("1,2").toList [] []
      ⟨("e@x.y").toList, ("pw").toList, ("99999999").toList, ("7").toList⟩)
    (by decide)

/-- C1 (amended): the merged record submitted to the server takes each
of email, password and backup from the parsed input when that parsed
field is set and non-empty, and otherwise (unset, or backup set to the
empty string — the parser can never set email or password to an empty
value) falls back to the fetched current value; the group field is
always the fetched current group, and the posted payload carries the
merged fields unchanged. -/
theorem claim_C1 (f1 f2 f3 : List Char) (cur : AccountRecord) :
    (mergeData (parse_inputs f1 f2 f3) cur).email
      = (parse_inputs f1 f2 f3).email.getD cur.email ∧
    (mergeData (parse_inputs f1 f2 f3) cur).password
      = (parse_inputs f1 f2 f3).password.getD cur.password ∧
    ((parse_inputs f1 f2 f3).backup ≠ some [] →
      (mergeData (parse_inputs f1 f2 f3) cur).backup
        = (parse_inputs f1 f2 f3).backup.getD cur.backup) ∧
    ((parse_inputs f1 f2 f3).backup = some [] →
      (mergeData (parse_inputs f1 f2 f3) cur).backup = cur.backup) ∧
    (mergeData (parse_inputs f1 f2 f3) cur).group = cur.group ∧
    mkEditPayload (mergeData (parse_inputs f1 f2 f3) cur) =
      ⟨(mergeData (parse_inputs f1 f2 f3) cur).email,
        (mergeData (parse_inputs f1 f2 f3) cur).password,
        (mergeData (parse_inputs f1 f2 f3) cur).backup,
        cur.group⟩ := by
  have hwf := parse_inputs_wf f1 f2 f3
  have he : (parse_inputs f1 f2 f3).email ≠ some [] := fun h => (hwf.1 [] h) rfl
  have hp : (parse_inputs f1 f2 f3).password ≠ some [] := fun h => (hwf.2 [] h) rfl
  refine ⟨?_, ?_, ?_, ?_, ?_, ?_⟩
  · show pyOr (parse_inputs f1 f2 f3).email cur.email = _
    rw [pyOr_getD _ _ he]
  · show pyOr (parse_inputs f1 f2 f3).password cur.password = _
    rw [pyOr_getD _ _ hp]
  · intro hb
    show pyOr (parse_inputs f1 f2 f3).backup cur.backup = _
    rw [pyOr_getD _ _ hb]
  · intro hb
    show pyOr (parse_inputs f1 f2 f3).backup cur.backup = cur.backup
    rw [hb]
    simp [pyOr]
  · rfl
  · rw [mkEditPayload_eq]
    rfl

/-- Witness for C1: a password-only input overrides only the password
while email keeps the fetched value, and the reachable set-to-empty
backup (input "1,2") falls back to the fetched backup with the group
carried over. -/
theorem claim_C1_witness :
    (mergeData (parse_inputs ("newpass123").toList [] [])
        ⟨("a@b.c").toList, ("old").toList, ("12345678").toList, ("7").toList⟩).password
      = ("newpass123").toList ∧
    (mergeData (parse_inputs ("newpass123").toList [] [])
        ⟨("a@b.c").toList, ("old").toList, ("12345678").toList, ("7").toList⟩).email
      = ("a@b.c").toList ∧
    (mergeData (parse_inputs ("1,2").toList [] [])
        ⟨("e@x.y").toList, ("pw").toList, ("99999999").toList, ("7").toList⟩).backup
      = ("99999999").toList ∧
    (mergeData (parse_inputs ("1,2").toList [] [])
        ⟨("e@x.y").toList, ("pw").toList, ("99999999").toList, ("7").toList⟩).group
      = ("7").toList := by
  have h1 := claim_C1 ("newpass123").toList [] []
    ⟨("a@b.c").toList, ("old").toList, ("12345678").toList, ("7").toList⟩
  have h2 := claim_C1 ("1,2").toList [] []
    ⟨("e@x.y").toList, ("pw").toList, ("99999999").toList, ("7").toList⟩
  exact ⟨h1.2.1.trans (by decide), h1.1.trans (by decide),
    (h2.2.2.2.1 (by decide)).trans (by decide), h2.2.2.2.2.1.trans (by decide)⟩

/-- C3: backup-code cleanup normalizes Arabic-Indic digits, splits on
commas and newlines, extracts every run of 8 or more consecutive
digits, keeps the last 8 digits of each run, deduplicates preserving
first-seen order and joins with commas; in particular
"12345678, 12345678, 87654321" cleans to "12345678,87654321". -/
theorem claim_C3 (l : List Char) :
    clean_backup_codes l = spec_clean_backup_codes l ∧
    clean_backup_codes ("12345678, 12345678, 87654321").toList
      = ("12345678,87654321").toList := by
  refine ⟨?_, by decide⟩
  rw [clean_backup_codes, spec_clean_backup_codes,
    findall8_standardize (convert_arabic_numbers l).length (convert_arabic_numbers l) le_rfl,
    flatMap_findall8_split (convert_arabic_numbers l).length (convert_arabic_numbers l) le_rfl]

/-- C9: clean_backup_codes is idempotent. -/
theorem claim_C9 (l : List Char) :
    clean_backup_codes (clean_backup_codes l) = clean_backup_codes l :=
  clean_canonical
    (pyDedup ((findall8 isPyDigit (standardize (convert_arabic_numbers l))).map last8))
    (clean_output_good l)
    (nodup_pyDedup _)

/-- The stated form of claim C5: the fetch is rejected exactly when the
data array has fewer than 4 fields. -/
def statedClaimC5 : Prop :=
  ∀ data : List (List Char), parseAccountData data = none ↔ data.length < 4

/-- C5 fails as stated: a data array with exactly 3 fields is accepted
by get_account_data (the source requires only 3 fields), against the
claimed threshold of 4. -/
theorem claim_C5_counterexample : ¬ statedClaimC5 := fun h =>
  absurd ((h [("a").toList, ("b").toList, ("c").toList]).mpr (by decide)) (by decide)

/-- C5 (amended): the fetch yields no record exactly when the response
data array has fewer than 3 fields, and a failed fetch makes
smart_edit_account return (false, fetchFailMsg). -/
theorem claim_C5 (d : List (List Char)) (n : NetState) (f1 f2 f3 : List Char)
    (data : List (List Char))
    (hout : n.fetchServer n.fetchCount = FetchOutcome.resp 200 data)
    (hnone : parseAccountData data = none) :
    (parseAccountData d = none ↔ d.length < 3) ∧
    (smart_edit_account f1 f2 f3 n).1 = false ∧
    (smart_edit_account f1 f2 f3 n).2.1 = fetchFailMsg := by
  refine ⟨?_, ?_⟩
  · constructor
    · intro hres
      by_contra hge
      push_neg at hge
      have hd : d ≠ [] := by
        intro he
        rw [he] at hge
        simp at hge
      unfold parseAccountData at hres
      rw [if_neg (by simp [hd]; omega)] at hres
      exact absurd hres (by simp)
    · intro hlt
      unfold parseAccountData
      rw [if_pos (Or.inr hlt)]
  · have hrec : (get_account_data n).record = none := by
      have hev := (get_account_data_eval n).1
      rw [hout] at hev
      simpa [hnone] using hev
    constructor <;> simp [smart_edit_account, hrec]

/-- Witness for C5: a 2-field array is rejected, and with a server that
returns an empty data array the edit fails with the fetch-failure
message. -/
theorem claim_C5_witness :
    (parseAccountData [("x").toList, ("y").toList] = none
      ↔ [("x").toList, ("y").toList].length < 3) ∧
    (smart_edit_account [] [] []
        ⟨some 1, 2, fun _ => FetchOutcome.resp 200 [], 0,
          fun _ _ => EditOutcome.exn [], 0⟩).1 = false ∧
    (smart_edit_account [] [] []
        ⟨some 1, 2, fun _ => FetchOutcome.resp 200 [], 0,
          fun _ _ => EditOutcome.exn [], 0⟩).2.1 = fetchFailMsg :=
  claim_C5 [("x").toList, ("y").toList]
    ⟨some 1, 2, fun _ => FetchOutcome.resp 200 [], 0, fun _ _ => EditOutcome.exn [], 0⟩
    [] [] [] [] rfl (by decide)

/-- C10: a fetched data array of length exactly 3 yields backup codes
equal to the empty string; any accepted array of length at most 6
yields the default group "1111", and the merge then submits that
default group back to the server. -/
theorem claim_C10 (data : List (List Char)) (f1 f2 f3 : List Char)
    (h3 : 3 ≤ data.length) (h6 : data.length ≤ 6) :
    (data.length = 3 → (parseAccountData data).map AccountRecord.backup = some []) ∧
    (parseAccountData data).map AccountRecord.group = some (("1111").toList) ∧
    (parseAccountData data).map
        (fun r => (mkEditPayload (mergeData (parse_inputs f1 f2 f3) r)).groupName)
      = some (("1111").toList) := by
  have hd : data ≠ [] := by
    intro he
    rw [he] at h3
    simp at h3
  have hsome : parseAccountData data = some
      { email := if 1 < data.length then data.getD 1 [] else []
        password := if 2 < data.length then data.getD 2 [] else []
        backup := if 3 < data.length then data.getD 3 [] else []
        group := if 6 < data.length then data.getD 6 [] else ("1111").toList } := by
    unfold parseAccountData
    rw [if_neg (by simp [hd]; omega)]
  have h6' : ¬(6 < data.length) := by omega
  refine ⟨?_, ?_, ?_⟩
  · intro h3'
    have : ¬(3 < data.length) := by omega
    rw [hsome]
    simp [this]
  · rw [hsome]
    simp [h6']
  · rw [hsome]
    simp [mkEditPayload_eq, mergeData, h6']

/-- Witness for C10: the 3-field array yields empty backup codes and
the default group, which the merge submits as groupName. -/
theorem claim_C10_witness :
    (parseAccountData [("a").toList, ("b").toList, ("c").toList]).map
        AccountRecord.backup = some [] ∧
    (parseAccountData [("a").toList, ("b").toList, ("c").toList]).map
        AccountRecord.group = some (("1111").toList) ∧
    (parseAccountData [("a").toList, ("b").toList, ("c").toList]).map
        (fun r => (mkEditPayload (mergeData (parse_inputs [] [] []) r)).groupName)
      = some (("1111").toList) := by
  have h := claim_C10 [("a").toList, ("b").toList, ("c").toList] [] [] []
    (by decide) (by decide)
  exact ⟨h.1 (by decide), h.2.1, h.2.2⟩

/-- The network environment used by the C4 refutation and witness: a
cached token, a server that answers 403 to the fetch POST and raises on
the edit POST. -/
def netC4 : NetState :=
  ⟨some 5, 9, fun _ => FetchOutcome.resp 403 [], 0,
    fun _ _ => EditOutcome.exn ("boom").toList, 0⟩

/-- The stated form of claim C4: a 403 response makes the fetch refresh
the token and retry once, so two POSTs happen and the cached token is
replaced by the freshly scraped one. -/
def statedClaimC4 : Prop :=
  ∀ (n : NetState) (data : List (List Char)),
    n.fetchServer n.fetchCount = FetchOutcome.resp 403 data →
      (get_account_data n).net.fetchCount = n.fetchCount + 2 ∧
      (get_account_data n).net.cachedToken = some n.freshToken

/-- C4 fails as stated: get_account_data contains no retry loop and no
status-dependent token invalidation; on a 403 it makes exactly one POST
and keeps the cached token. -/
theorem claim_C4_counterexample : ¬ statedClaimC4 := fun h =>
  absurd (h netC4 [] rfl).1 (by decide)

/-- C4 (amended): each fetch and each edit submission performs exactly
one POST; a 403 response does not refresh the token and simply yields
no record; exceptions and failures surface as a none record or a
(false, message) pair, never as an escaping exception. -/
theorem claim_C4 (n : NetState) (t : Nat) (p : EditPayload)
    (dataf : List (List Char)) (em : List Char)
    (ht : n.cachedToken = some t)
    (hf : n.fetchServer n.fetchCount = FetchOutcome.resp 403 dataf)
    (he : n.editServer n.editCount p = EditOutcome.exn em) :
    (get_account_data n).postsUsed = 1 ∧
    (get_account_data n).net.fetchCount = n.fetchCount + 1 ∧
    (get_account_data n).refreshes = 0 ∧
    (get_account_data n).net.cachedToken = some t ∧
    (get_account_data n).record = none ∧
    (edit_account n p).ok = false ∧
    (edit_account n p).msg = em := by
  refine ⟨?_, ?_, ?_, ?_, ?_, ?_, ?_⟩ <;>
    simp [get_account_data, edit_account, getTokenM, ht, hf, he]

/-- Witness for C4 at the concrete environment netC4. -/
theorem claim_C4_witness :
    (get_account_data netC4).postsUsed = 1 ∧
    (get_account_data netC4).net.fetchCount = 0 + 1 ∧
    (get_account_data netC4).refreshes = 0 ∧
    (get_account_data netC4).net.cachedToken = some 5 ∧
    (get_account_data netC4).record = none ∧
    (edit_account netC4 ⟨[], [], [], []⟩).ok = false ∧
    (edit_account netC4 ⟨[], [], [], []⟩).msg = ("boom").toList :=
  claim_C4 netC4 5 ⟨[], [], [], []⟩ [] ("boom").toList rfl rfl rfl

/-- The stated form of claim C6: every non-empty field whose stripped
text has length 1 to 4 is classified as the trigger marker and
contributes no field value. -/
def statedClaimC6 : Prop :=
  ∀ field : List Char, pyStrip field ≠ [] → (pyStrip field).length ≤ 4 →
    detect_field_type field = some (FieldType.trigger, pyStrip field) ∧
    ∀ d : ParsedData, applyField d field = { d with has_trigger := true }

/-- C6 fails as stated: the email heuristic runs before the length
check, so the 2-character field "@." is classified as an email, not as
a trigger. -/
theorem claim_C6_counterexample : ¬ statedClaimC6 := fun h =>
  absurd (h ("@.").toList (by decide) (by decide)).1 (by decide)

/-- C6 (amended): a field whose stripped text has length 1 to 4 is
classified as the trigger marker and contributes no field value,
provided it is not caught by an earlier heuristic: it must not contain
both "@" and ".", and its normalization must not contain a comma (the
digit-run and 16-digit heuristics cannot fire at length 4 or less). -/
theorem claim_C6 (field : List Char) (d : ParsedData)
    (h1 : pyStrip field ≠ [])
    (h4 : (pyStrip field).length ≤ 4)
    (hat : ¬('@' ∈ pyStrip field ∧ '.' ∈ pyStrip field))
    (hcm : ',' ∉ convert_arabic_numbers (pyStrip field)) :
    detect_field_type field = some (FieldType.trigger, pyStrip field) ∧
    applyField d field = { d with has_trigger := true } := by
  have hlen : (convert_arabic_numbers (pyStrip field)).length ≤ 4 := by
    rw [convert_eq_map, List.length_map]
    exact h4
  have hfa8 : findall8 isPyDigit (convert_arabic_numbers (pyStrip field)) = [] :=
    findall8_short isPyDigit _ (by omega)
  have h16 : ¬(16 ≤ ((convert_arabic_numbers (pyStrip field)).filter isPyDigit).length) := by
    have := List.length_filter_le isPyDigit (convert_arabic_numbers (pyStrip field))
    omega
  have hlenpos : 1 ≤ (pyStrip field).length := by
    have : 0 < (pyStrip field).length := List.length_pos.mpr h1
    omega
  have hdet : detect_field_type field = some (FieldType.trigger, pyStrip field) := by
    simp only [detect_field_type]
    rw [if_neg h1, if_neg hat, if_neg hcm, if_neg (by simp [hfa8]), if_neg h16,
      if_pos ⟨hlenpos, h4⟩]
  have hfne : field ≠ [] := by
    intro hef
    rw [hef] at h1
    exact h1 rfl
  exact ⟨hdet, by simp [applyField, hfne, hdet]⟩

/-- Witness for C6: the field "99" sets the trigger flag and assigns no
field value. -/
theorem claim_C6_witness :
    detect_field_type ("99").toList = some (FieldType.trigger, pyStrip ("99").toList) ∧
    applyField emptyParsed ("99").toList = { emptyParsed with has_trigger := true } :=
  claim_C6 ("99").toList emptyParsed (by decide) (by decide) (by decide) (by decide)

/-- The stated form of claim C7: a non-200 edit response yields
(false, message) with the body truncated to 100 characters. -/
def statedClaimC7 : Prop :=
  ∀ (n : NetState) (p : EditPayload) (status : Nat) (text : List Char),
    n.editServer n.editCount p = EditOutcome.resp status text → status ≠ 200 →
      (edit_account n p).msg = text.take 100

/-- The network environment used by the C7 refutation: the edit POST
answers 500 with a 150-character body. -/
def netC7 : NetState :=
  ⟨some 1, 2, fun _ => FetchOutcome.exn [], 0,
    fun _ _ => EditOutcome.resp 500 (List.replicate 150 ('x')), 0⟩

/-- C7 fails as stated: edit_account returns the response body in
full; nothing truncates it to 100 characters (only log lines print
truncated prefixes). -/
theorem claim_C7_counterexample : ¬ statedClaimC7 := fun h =>
  absurd
    (h netC7 ⟨[], [], [], []⟩ 500 (List.replicate 150 ('x')) rfl (by decide))
    (by decide)

/-- C7 (amended): a non-200 edit response makes the edit fail and the
whole response body is passed back unchanged through
smart_edit_account. -/
theorem claim_C7 (n : NetState) (f1 f2 f3 : List Char) (data : List (List Char))
    (cur : AccountRecord) (status : Nat) (text : List Char)
    (hf : n.fetchServer n.fetchCount = FetchOutcome.resp 200 data)
    (hp : parseAccountData data = some cur)
    (he : n.editServer n.editCount
        (mkEditPayload (mergeData (parse_inputs f1 f2 f3) cur)) = EditOutcome.resp status text)
    (hs : status ≠ 200) :
    (smart_edit_account f1 f2 f3 n).1 = false ∧
    (smart_edit_account f1 f2 f3 n).2.1 = text := by
  have hev := get_account_data_eval n
  have hrec : (get_account_data n).record = some cur := by
    rw [hev.1, hf]
    simp [hp]
  have hesv : (get_account_data n).net.editServer ((get_account_data n).net.editCount)
      (mkEditPayload (mergeData (parse_inputs f1 f2 f3) cur)) = EditOutcome.resp status text := by
    rw [hev.2.2.2.2.1, hev.2.2.2.2.2]
    exact he
  have hres := edit_account_resp (get_account_data n).net
    (mkEditPayload (mergeData (parse_inputs f1 f2 f3) cur)) status text hesv
  constructor <;> simp [smart_edit_account, hrec, hres.1, hres.2, hs]

/-- The data array and network environment used by the C7 witness. -/
def netC7w : NetState :=
  ⟨some 3, 4, fun _ => FetchOutcome.resp 200 [("i").toList, ("a@b.c").toList, ("pw").toList], 0,
    fun _ _ => EditOutcome.resp 500 ("denied").toList, 0⟩

/-- Witness for C7: the 500 response body "denied" is returned in full. -/
theorem claim_C7_witness :
    (smart_edit_account [] [] [] netC7w).1 = false ∧
    (smart_edit_account [] [] [] netC7w).2.1 = ("denied").toList :=
  claim_C7 netC7w [] [] [] [("i").toList, ("a@b.c").toList, ("pw").toList]
    ⟨("a@b.c").toList, ("pw").toList, [], ("1111").toList⟩ 500 ("denied").toList
    rfl (by decide) rfl (by decide)

/-- The stated form of claim C8: at most 2 edit operations are ever in
flight. -/
def statedClaimC8 : Prop := ∀ s : List Phase, Reach s → inFlightCount s ≤ 2

/-- C8 fails as stated: smart_edit_account acquires no semaphore, so
the event loop can drive three pending edit calls into their network
phase simultaneously. -/
theorem claim_C8_counterexample : ¬ statedClaimC8 := by
  intro h
  have r0 := Reach.init
  have r1 := Reach.step _ 0 r0
  have r2 := Reach.step _ 1 r1
  have r3 := Reach.step _ 2 r2
  have heq : stepAt (stepAt (stepAt [Phase.ready, Phase.ready, Phase.ready] 0) 1) 2
      = [Phase.fetching, Phase.fetching, Phase.fetching] := by decide
  rw [heq] at r3
  exact absurd (h _ r3) (by decide)

/-- C8 (amended): the source contains no counting limiter around edit
operations; a state with 3 edits in flight at once is reachable from
three pending calls. -/
theorem claim_C8 :
    Reach [Phase.fetching, Phase.fetching, Phase.fetching] ∧
    inFlightCount [Phase.fetching, Phase.fetching, Phase.fetching] = 3 := by
  refine ⟨?_, by decide⟩
  have r0 := Reach.init
  have r1 := Reach.step _ 0 r0
  have r2 := Reach.step _ 1 r1
  have r3 := Reach.step _ 2 r2
  have heq : stepAt (stepAt (stepAt [Phase.ready, Phase.ready, Phase.ready] 0) 1) 2
      = [Phase.fetching, Phase.fetching, Phase.fetching] := by decide
  rw [heq] at r3
  exact r3

/-- C2: a first tracked failure for a key sends exactly one
notification with attempt 1 and records the three timestamps; a second
tracked failure before the fast resend interval elapses sends nothing
(neither from track_error nor from the resend sweep); once the
auto-resolve timeout passes with no further occurrence, the periodic
sweep sends exactly one resolved notification for the key and removes
it from the active state. -/
theorem claim_C2 (cfg : NotifierConfig) (st st2 : ErrState)
    (w o e d d2 : List Char) (info : ErrorInfo) (t0 t1 tr tz : Int)
    (hen : cfg.enabled = true)
    (hnew : lookupKey (generate_error_key w o e) st = none)
    (hnd2 : (st2.map Prod.fst).Nodup)
    (hex : lookupKey (generate_error_key w o e) st2 = some info)
    (hcnt : info.count < cfg.max_fast_retries)
    (hfast : tr - info.last_sent < cfg.resend_interval)
    (htmo : cfg.auto_resolve_timeout ≤ tz - info.last_occurrence) :
    track_error cfg st w o e d t0 =
      (st ++ [(generate_error_key w o e, ⟨t0, t0, t0, 1, w, o, e, d⟩)],
        [⟨generate_error_key w o e, 1, false⟩]) ∧
    (track_error cfg st2 w o e d2 t1).2 = [] ∧
    (resend_notifications cfg st2 tr).2.filter
        (fun nt => decide (nt.key = generate_error_key w o e)) = [] ∧
    (check_resolved_errors cfg st2 tz).2.filter
        (fun nt => decide (nt.key = generate_error_key w o e))
      = [⟨generate_error_key w o e, info.count, true⟩] ∧
    lookupKey (generate_error_key w o e) (check_resolved_errors cfg st2 tz).1 = none := by
  have hent := lookupKey_entries (generate_error_key w o e) info st2 hnd2 hex
  have hPfalse : ∀ x ∈ st2, x.1 = generate_error_key w o e →
      (fun x => resendCond cfg tr x.2) x = false := by
    intro x hx hxK
    rw [hent.2 x hx hxK]
    simp [resendCond, resendInterval, Nat.not_le.mpr hcnt, not_le.mpr hfast]
  have hPtrue : resolvedCond cfg tz info = true := by
    simp [resolvedCond, htmo]
  refine ⟨?_, ?_, ?_, ?_, ?_⟩
  · simp [track_error, hen, hnew]
  · simp [track_error, hen, hex]
  · have hnil := filter_map_key_nil (generate_error_key w o e)
      (fun x => resendCond cfg tr x.2)
      (fun x => ⟨x.1, x.2.count + 1, false⟩) (fun x => rfl) st2 hPfalse
    simpa [resend_notifications, hen] using hnil
  · have hone := filter_map_key_single (generate_error_key w o e) info
      (fun x => resolvedCond cfg tz x.2)
      (fun x => ⟨x.1, x.2.count, true⟩) (fun x => rfl) st2 hnd2 hent.1 hent.2 hPtrue
    simpa [check_resolved_errors, hen] using hone
  · have hall : ∀ x ∈ st2, x.1 = generate_error_key w o e →
        (fun x => resolvedCond cfg tz x.2) x = true := by
      intro x hx hxK
      rw [hent.2 x hx hxK]
      exact hPtrue
    have hnone := lookupKey_filter_none (generate_error_key w o e)
      (fun x => resolvedCond cfg tz x.2) st2 hall
    simpa [check_resolved_errors, hen] using hnone

/-- The concrete tracker configuration of the C2 witness (the getter
defaults of the source). -/
def cfgW : NotifierConfig := ⟨true, 40, 3, 120, 60⟩

/-- The error key of the C2 witness. -/
def keyW : List Char := generate_error_key ("w").toList ("op").toList ("E").toList

/-- The active-error entry of the C2 witness. -/
def infoW : ErrorInfo :=
  ⟨0, 0, 0, 1, ("w").toList, ("op").toList, ("E").toList, ("d").toList⟩

/-- Witness for C2 at a concrete configuration, state and timeline. -/
theorem claim_C2_witness :
    track_error cfgW [] ("w").toList ("op").toList ("E").toList ("d").toList 5 =
      ([(keyW, ⟨5, 5, 5, 1, ("w").toList, ("op").toList, ("E").toList, ("d").toList⟩)],
        [⟨keyW, 1, false⟩]) ∧
    (track_error cfgW [(keyW, infoW)] ("w").toList ("op").toList ("E").toList
        ("d2").toList 6).2 = [] ∧
    (resend_notifications cfgW [(keyW, infoW)] 20).2.filter
        (fun nt => decide (nt.key = keyW)) = [] ∧
    (check_resolved_errors cfgW [(keyW, infoW)] 100).2.filter
        (fun nt => decide (nt.key = keyW)) = [⟨keyW, 1, true⟩] ∧
    lookupKey keyW (check_resolved_errors cfgW [(keyW, infoW)] 100).1 = none :=
  claim_C2 cfgW [] [(keyW, infoW)] ("w").toList ("op").toList ("E").toList
    ("d").toList ("d2").toList infoW 5 6 20 100 rfl rfl (by decide) (by decide)
    (by decide) (by decide) (by decide)

end Claims
